import Mathlib

/-
  Verification of the simple-calc expression pipeline.

  The C++ sources (src/main.cpp and src/clean/main.cpp) implement one
  calculator: tokenize -> toPostfix (shunting yard) -> evaluatePostfix.
  The two files are line-for-line identical in all pipeline logic; the
  traced variant (src/main.cpp) additionally prints intermediate tokens
  and stack operations.  We embed the pipeline shallowly: strings are
  lists of characters, C++ double is modelled by the exact rationals,
  thrown runtime_error values become an explicit error type.
-/

namespace SimpleCalc

/-- Errors corresponding to the distinct runtime_error throws in the source. -/
inductive CalcError where
  | unknownChar (c : Char)
  | multipleDecimalPoints
  | unexpectedRParen
  | unclosedLParen
  | missingOperandUnaryMinus
  | missingOperandPercent
  | missingOperandBinary
  | divisionByZero
  | malformedExpression
  | unknownOperator (op : Char)
deriving DecidableEq, Repr

/-- Token, mirroring struct Token with enum Type NUMBER, OPERATOR,
PAREN_LEFT, PAREN_RIGHT.  A number carries its value, an operator its
character symbol (unary minus is the character u, as in the source). -/
inductive Token where
  | number (value : ℚ)
  | operator (op : Char)
  | parenLeft
  | parenRight
deriving DecidableEq, Repr

/-- Model of C isdigit for the character-class checks in tokenize. -/
def isdigit (c : Char) : Bool := 48 ≤ c.toNat && c.toNat ≤ 57

/-- Model of C isspace: space (32) and the control range tab..CR (9..13). -/
def isspace (c : Char) : Bool := c.toNat == 32 || (9 ≤ c.toNat && c.toNat ≤ 13)

/-- Characters that continue a number literal in the tokenize while loop. -/
def isDigitOrDot (c : Char) : Bool := isdigit c || c == '.'

/-- Calculator::precedence: the switch on the operator character. -/
def precedence (op : Char) : ℕ :=
  if op == '+' || op == '-' then 1
  else if op == '*' || op == '/' then 2
  else if op == 'u' then 3
  else if op == '^' then 4
  else if op == '%' then 5
  else 0

/-- Model of C pow restricted to the rationals: exact integer powers
(the only exponents exercised by the claims); a non-integer exponent,
whose C result is a general real, is mapped to a default value. -/
def powQ (x y : ℚ) : ℚ := if y.den = 1 then x ^ y.num else 0

/-- Calculator::applyOperation: the binary arithmetic switch, throwing
on division by zero and on an unknown operator character. -/
def applyOperation (x y : ℚ) (op : Char) : Except CalcError ℚ :=
  if op == '+' then .ok (x + y)
  else if op == '-' then .ok (x - y)
  else if op == '*' then .ok (x * y)
  else if op == '/' then
    if y = 0 then .error .divisionByZero else .ok (x / y)
  else if op == '^' then .ok (powQ x y)
  else .error (.unknownOperator op)

/-- Numeric value of a digit string, most significant digit first. -/
def digitsVal (ds : List Char) : ℕ := ds.foldl (fun a c => 10 * a + (c.toNat - 48)) 0

/-- Model of std::stod on the literals tokenize accumulates: an optional
integer part, an optional dot, an optional fractional part. -/
def stod (s : List Char) : ℚ :=
  let intPart := s.takeWhile (fun c => !(c == '.'))
  let rest := s.dropWhile (fun c => !(c == '.'))
  match rest with
  | [] => (digitsVal intPart : ℚ)
  | _ :: frac => (digitsVal intPart : ℚ) + (digitsVal frac : ℚ) / (10 : ℚ) ^ frac.length

/-- Whether tokens.back() is an OPERATOR or a PAREN_LEFT token, the
lookbehind of the unary-minus rule in tokenize. -/
def lastIsOpOrLParen (tokens : List Token) : Bool :=
  match tokens.getLast? with
  | some (.operator _) => true
  | some .parenLeft => true
  | _ => false

/-- The inner while loop of the number case of tokenize: consume digits
and dots, failing on a second dot, and return the consumed run together
with the unconsumed remainder. -/
def lexNumber (hasDecimal : Bool) : List Char → Except CalcError (List Char × List Char)
  | [] => .ok ([], [])
  | c :: rest =>
    if isdigit c then
      match lexNumber hasDecimal rest with
      | .error e => .error e
      | .ok (s, r) => .ok (c :: s, r)
    else if c == '.' then
      if hasDecimal then .error .multipleDecimalPoints
      else
        match lexNumber true rest with
        | .error e => .error e
        | .ok (s, r) => .ok ('.' :: s, r)
    else .ok ([], c :: rest)

/-- Calculator::tokenize, as a recursion over the remaining characters
carrying the tokens emitted so far (the source indexes the string with i
and pushes onto tokens; the emitted-so-far list is needed because the
unary-minus rule looks at tokens.back()). -/
def tokenizeAux : List Char → List Token → Except CalcError (List Token)
  | [], tokens => .ok tokens
  | c :: rest, tokens =>
    if isspace c then tokenizeAux rest tokens
    else if c == '-' && (tokens.isEmpty || lastIsOpOrLParen tokens) then
      tokenizeAux rest (tokens ++ [.operator 'u'])
    else if isdigit c || (c == '.' && (match rest with | c2 :: _ => isdigit c2 | [] => false)) then
      match hlex : lexNumber (c == '.') rest with
      | .error e => .error e
      | .ok (s, r) => tokenizeAux r (tokens ++ [.number (stod (c :: s))])
    else if c == '+' || c == '-' || c == '*' || c == '/' || c == '^' || c == '%' then
      tokenizeAux rest (tokens ++ [.operator c])
    else if c == '(' then tokenizeAux rest (tokens ++ [.parenLeft])
    else if c == ')' then tokenizeAux rest (tokens ++ [.parenRight])
    else .error (.unknownChar c)
termination_by l _ => l.length
decreasing_by
  all_goals simp_wf
  · have H : ∀ (l : List Char) (hasD : Bool) (s r : List Char),
        lexNumber hasD l = .ok (s, r) → r.length ≤ l.length := by
      intro l
      induction l with
      | nil =>
        intro hasD s r h
        simp [lexNumber] at h
        simp [h.2]
      | cons c0 rest0 ih =>
        intro hasD s r h
        simp only [lexNumber] at h
        by_cases hd : isdigit c0
        · simp only [hd, if_true] at h
          cases hlex0 : lexNumber hasD rest0 with
          | error e => rw [hlex0] at h; simp at h
          | ok p =>
            rw [hlex0] at h
            obtain ⟨s', r'⟩ := p
            simp at h
            have := ih hasD s' r' hlex0
            simp [← h.2]
            omega
        · simp only [hd, if_false] at h
          by_cases hc : c0 == '.'
          · simp only [hc, if_true] at h
            by_cases hD : hasD
            · simp [hD] at h
            · simp only [hD, if_false] at h
              cases hlex0 : lexNumber true rest0 with
              | error e => rw [hlex0] at h; simp at h
              | ok p =>
                rw [hlex0] at h
                obtain ⟨s', r'⟩ := p
                simp at h
                have := ih true s' r' hlex0
                simp [← h.2]
                omega
          · simp only [hc, if_false] at h
            simp at h
            simp [← h.2]
    have := H rest (c == '.') s r hlex
    omega

/-- Entry point of the lexer: tokenize starts with an empty token vector. -/
def tokenize (s : List Char) : Except CalcError (List Token) := tokenizeAux s []

/-- The isRightAssociative lambda in toPostfix. -/
def isRightAssociative (op : Char) : Bool := op == '^' || op == 'u' || op == '%'

/-- The pop condition of the shunting-yard while loop, for incoming
operator op against stack-top operator topOp. -/
def shouldPop (op topOp : Char) : Bool :=
  (!isRightAssociative op && decide (precedence topOp ≥ precedence op)) ||
  (isRightAssociative op && decide (precedence topOp > precedence op))

/-- The while loop run on OPERATOR input: pop stack-top operators
satisfying the pop condition; returns (popped, remaining stack). -/
def popOps (op : Char) : List Token → List Token × List Token
  | .operator topOp :: st =>
    if shouldPop op topOp then
      let p := popOps op st
      (.operator topOp :: p.1, p.2)
    else ([], .operator topOp :: st)
  | st => ([], st)

/-- The while loop run on PAREN_RIGHT input: pop until a PAREN_LEFT is
found and discard it; an emptied stack means an unmatched close paren. -/
def popUntilLParen : List Token → Except CalcError (List Token × List Token)
  | [] => .error .unexpectedRParen
  | .parenLeft :: st => .ok ([], st)
  | t :: st =>
    match popUntilLParen st with
    | .error e => .error e
    | .ok (p, st') => .ok (t :: p, st')

/-- The final drain of toPostfix: pop everything; a remaining PAREN_LEFT
means an unmatched open paren. -/
def drainStack : List Token → Except CalcError (List Token)
  | [] => .ok []
  | .parenLeft :: _ => .error .unclosedLParen
  | t :: st =>
    match drainStack st with
    | .error e => .error e
    | .ok d => .ok (t :: d)

/-- Calculator::toPostfix main loop over the input tokens, carrying the
output vector and the operator stack (head = stack top). -/
def toPostfixAux : List Token → List Token → List Token → Except CalcError (List Token)
  | [], output, opStack =>
    match drainStack opStack with
    | .error e => .error e
    | .ok d => .ok (output ++ d)
  | t :: rest, output, opStack =>
    match t with
    | .number _ => toPostfixAux rest (output ++ [t]) opStack
    | .operator op =>
      let p := popOps op opStack
      toPostfixAux rest (output ++ p.1) (.operator op :: p.2)
    | .parenLeft => toPostfixAux rest output (.parenLeft :: opStack)
    | .parenRight =>
      match popUntilLParen opStack with
      | .error e => .error e
      | .ok (p, st) => toPostfixAux rest (output ++ p) st

/-- Calculator::toPostfix: start with empty output and empty stack. -/
def toPostfix (tokens : List Token) : Except CalcError (List Token) :=
  toPostfixAux tokens [] []

/-- One iteration of the evaluatePostfix loop on one token, over the
value stack (head = stack top).  Note there is no branch for paren
tokens: the source loop silently skips them. -/
def evalStep (st : List ℚ) (t : Token) : Except CalcError (List ℚ) :=
  match t with
  | .number v => .ok (v :: st)
  | .operator op =>
    if op == 'u' then
      match st with
      | [] => .error .missingOperandUnaryMinus
      | x :: st' => .ok (-x :: st')
    else if op == '%' then
      match st with
      | [] => .error .missingOperandPercent
      | x :: st' => .ok (x / 100 :: st')
    else
      match st with
      | y :: x :: st' =>
        match applyOperation x y op with
        | .error e => .error e
        | .ok r => .ok (r :: st')
      | _ => .error .missingOperandBinary
  | _ => .ok st

/-- The full pass of the evaluatePostfix loop. -/
def evalLoop : List Token → List ℚ → Except CalcError (List ℚ)
  | [], st => .ok st
  | t :: rest, st =>
    match evalStep st t with
    | .error e => .error e
    | .ok st' => evalLoop rest st'

/-- Calculator::evaluatePostfix: run the loop from an empty stack, then
require exactly one remaining value and return it. -/
def evaluatePostfix (rpn : List Token) : Except CalcError ℚ :=
  match evalLoop rpn [] with
  | .error e => .error e
  | .ok [x] => .ok x
  | .ok _ => .error .malformedExpression

/-- Calculator::evaluateExpr (clean variant): tokenize, convert to
postfix, evaluate; any stage failure stops the pipeline. -/
def evaluate (s : List Char) : Except CalcError ℚ :=
  match tokenize s with
  | .error e => .error e
  | .ok tokens =>
    match toPostfix tokens with
    | .error e => .error e
    | .ok rpn => evaluatePostfix rpn

/-
  The traced variant (src/main.cpp).  Its tokenize, precedence,
  applyOperation and toPostfix are textually identical to the clean
  variant and are shared above; its evaluatePostfix interleaves cout
  statements into the loop, and its evaluateExpr calls debug (which only
  prints the token list) after tokenization and after postfix
  conversion.  Each print site is modelled as an emitted trace event.
-/

/-- One trace event per cout site of the traced variant. -/
inductive TraceEvent where
  | pushNum (v : ℚ)
  | unaryApplied (x : ℚ)
  | percentApplied (x : ℚ)
  | binApplied (op : Char) (x y r : ℚ)
  | debugTrace (tokens : List Token)
deriving DecidableEq, Repr

/-- The evaluatePostfix loop of the traced variant: same stack machine,
also accumulating the trace of its prints.  A thrown error keeps the
prints made before the throw. -/
def evalLoopTraced : List Token → List ℚ → List TraceEvent →
    List TraceEvent × Except CalcError (List ℚ)
  | [], st, tr => (tr, .ok st)
  | t :: rest, st, tr =>
    match t with
    | .number v => evalLoopTraced rest (v :: st) (tr ++ [.pushNum v])
    | .operator op =>
      if op == 'u' then
        match st with
        | [] => (tr, .error .missingOperandUnaryMinus)
        | x :: st' => evalLoopTraced rest (-x :: st') (tr ++ [.unaryApplied x])
      else if op == '%' then
        match st with
        | [] => (tr, .error .missingOperandPercent)
        | x :: st' => evalLoopTraced rest (x / 100 :: st') (tr ++ [.percentApplied x])
      else
        match st with
        | y :: x :: st' =>
          match applyOperation x y op with
          | .error e => (tr, .error e)
          | .ok r => evalLoopTraced rest (r :: st') (tr ++ [.binApplied op x y r])
        | _ => (tr, .error .missingOperandBinary)
    | _ => evalLoopTraced rest st tr

/-- evaluatePostfix of the traced variant: the loop with prints, then
the same final single-value check. -/
def evaluatePostfixTraced (rpn : List Token) : List TraceEvent × Except CalcError ℚ :=
  let p := evalLoopTraced rpn [] []
  match p.2 with
  | .error e => (p.1, .error e)
  | .ok [x] => (p.1, .ok x)
  | .ok _ => (p.1, .error .malformedExpression)

/-- evaluateExpr of the traced variant: tokenize, debug print, postfix,
debug print, traced evaluation. -/
def evaluateTraced (s : List Char) : List TraceEvent × Except CalcError ℚ :=
  match tokenize s with
  | .error e => ([], .error e)
  | .ok tokens =>
    match toPostfix tokens with
    | .error e => ([.debugTrace tokens], .error e)
    | .ok rpn =>
      let p := evaluatePostfixTraced rpn
      (.debugTrace tokens :: .debugTrace rpn :: p.1, p.2)

/-
  Spec-side notions used to state the claims.
-/

/-- A valid numeric literal as the lexer accepts it: begun by a digit,
or by a dot immediately followed by a digit; made of digits and at most
one dot. -/
def isLit (l : List Char) : Bool :=
  match l with
  | [] => false
  | c :: cs =>
    (isdigit c || (c == '.' && (match cs with | c2 :: _ => isdigit c2 | [] => false)))
      && (c :: cs).all isDigitOrDot
      && decide ((c :: cs).countP (fun x => x == '.') ≤ 1)

/-- Direct arithmetic application of a binary operator, following the
spec sentence of claim C1 word for word. -/
def directApply (x y : ℚ) (op : Char) : ℚ :=
  if op = '+' then x + y
  else if op = '-' then x - y
  else if op = '*' then x * y
  else if op = '/' then x / y
  else powQ x y

/-- A token that is a Number or an Operator (what a postfix sequence may
contain). -/
def isNumOrOp (t : Token) : Bool :=
  match t with
  | .number _ => true
  | .operator _ => true
  | _ => false

/-- A token that is an Operator or a LeftParen (what the shunting-yard
operator stack may contain). -/
def isOpOrLParenTok (t : Token) : Bool :=
  match t with
  | .operator _ => true
  | .parenLeft => true
  | _ => false

/-- LeftParen recognizer, for paren counting. -/
def isLParenTok (t : Token) : Bool :=
  match t with
  | .parenLeft => true
  | _ => false

/-- RightParen recognizer, for paren counting. -/
def isRParenTok (t : Token) : Bool :=
  match t with
  | .parenRight => true
  | _ => false

/-- Number of LeftParen tokens in a list. -/
def lpCount (l : List Token) : ℕ := l.countP isLParenTok

/-- Number of RightParen tokens in a list. -/
def rpCount (l : List Token) : ℕ := l.countP isRParenTok

/-- Whether some prefix of the token list closes more parens than were
open, starting from k already-open parens: the condition under which a
RightParen finds no matching LeftParen. -/
def hasPrefixExcess : List Token → ℕ → Bool
  | [], _ => false
  | .parenLeft :: rest, k => hasPrefixExcess rest (k + 1)
  | .parenRight :: rest, k => if k = 0 then true else hasPrefixExcess rest (k - 1)
  | _ :: rest, k => hasPrefixExcess rest k

/-
  Character-class helper lemmas.
-/

theorem isDigitOrDot_not_space {c : Char} (h : isDigitOrDot c = true) :
    isspace c = false := by
  simp only [isDigitOrDot, isdigit, Bool.or_eq_true, Bool.and_eq_true, decide_eq_true_eq,
    beq_iff_eq] at h
  rcases h with h | h
  · simp only [isspace, Bool.or_eq_false_iff, Bool.and_eq_false_iff]
    constructor
    · simp only [beq_eq_false_iff_ne]
      omega
    · rcases Nat.lt_or_ge c.toNat 9 with h9 | h9
      · left; simp; omega
      · right; simp; omega
  · subst h; decide

theorem isDigitOrDot_ne_minus {c : Char} (h : isDigitOrDot c = true) :
    (c == '-') = false := by
  rw [beq_eq_false_iff_ne]
  rintro rfl
  exact absurd h (by decide)

theorem isdigit_ne_dot {c : Char} (h : isdigit c = true) : (c == '.') = false := by
  rw [beq_eq_false_iff_ne]
  rintro rfl
  exact absurd h (by decide)

/-
  Single-step facts about the lexer.
-/

theorem tokenizeAux_space {c : Char} (h : isspace c = true) (rest : List Char)
    (tokens : List Token) : tokenizeAux (c :: rest) tokens = tokenizeAux rest tokens := by
  rw [tokenizeAux.eq_def]
  simp [h]

/-- Behaviour of the number while loop on a run of digits and dots
followed by a non-number character (or the end of input): the run is
consumed whole when it holds at most one dot in total, and lexing fails
on multiple decimal points otherwise. -/
theorem lexNumber_run (cs : List Char) : ∀ (hasD : Bool) (r : List Char),
    cs.all isDigitOrDot = true →
    (∀ ch, r.head? = some ch → isDigitOrDot ch = false) →
    lexNumber hasD (cs ++ r) =
      if cs.countP (fun x => x == '.') + (if hasD then 1 else 0) ≤ 1
      then .ok (cs, r)
      else .error .multipleDecimalPoints := by
  induction cs with
  | nil =>
    intro hasD r _ hr
    have hcond : ([] : List Char).countP (fun x => x == '.') + (if hasD then 1 else 0) ≤ 1 := by
      cases hasD <;> simp
    rw [if_pos hcond]
    cases r with
    | nil => simp [lexNumber]
    | cons ch r' =>
      have hch : isDigitOrDot ch = false := hr ch rfl
      have hd : isdigit ch = false := by
        simp only [isDigitOrDot, Bool.or_eq_false_iff] at hch
        exact hch.1
      have hdot : (ch == '.') = false := by
        simp only [isDigitOrDot, Bool.or_eq_false_iff] at hch
        exact hch.2
      simp [lexNumber, hd, hdot]
  | cons c cs' ih =>
    intro hasD r hall hr
    simp only [List.all_cons, Bool.and_eq_true] at hall
    obtain ⟨hc, hall'⟩ := hall
    rw [List.cons_append]
    by_cases hd : isdigit c = true
    · have hcdot : (c == '.') = false := isdigit_ne_dot hd
      simp only [lexNumber, hd, if_true]
      rw [ih hasD r hall' hr]
      have : (c :: cs').countP (fun x => x == '.') = cs'.countP (fun x => x == '.') := by
        simp [List.countP_cons, hcdot]
      rw [this]
      by_cases hcond : cs'.countP (fun x => x == '.') + (if hasD then 1 else 0) ≤ 1
      · rw [if_pos hcond, if_pos hcond]
      · rw [if_neg hcond, if_neg hcond]
    · have hd' : isdigit c = false := by simpa using hd
      have hceq : c = '.' := by
        simp only [isDigitOrDot, Bool.or_eq_true, beq_iff_eq, hd'] at hc
        simpa using hc
      subst hceq
      have hcount : ('.' :: cs').countP (fun x => x == '.') =
          cs'.countP (fun x => x == '.') + 1 := by
        simp [List.countP_cons]
      cases hasD with
      | true =>
        rw [if_neg (by rw [hcount]; simp)]
        simp [lexNumber, hd']
      | false =>
        simp only [lexNumber, hd', Bool.false_eq_true, if_false, beq_self_eq_true, if_true]
        rw [ih true r hall' hr]
        rw [hcount]
        by_cases hcond : cs'.countP (fun x => x == '.') + 1 ≤ 1
        · rw [if_pos (by simpa using hcond), if_pos (by simpa using hcond)]
        · rw [if_neg (by simpa using hcond), if_neg (by simpa using hcond)]

/-- The lexer on input beginning with a number literal: the maximal
digit-and-dot run is consumed into one Number token when it has at most
one dot, and lexing fails on multiple decimal points otherwise. -/
theorem tokenizeAux_literal (c : Char) (cs r : List Char) (tokens : List Token)
    (hguard : (isdigit c ||
      (c == '.' && (match cs with | c2 :: _ => isdigit c2 | [] => false))) = true)
    (hall : (c :: cs).all isDigitOrDot = true)
    (hr : ∀ ch, r.head? = some ch → isDigitOrDot ch = false) :
    tokenizeAux (c :: cs ++ r) tokens =
      if (c :: cs).countP (fun x => x == '.') ≤ 1
      then tokenizeAux r (tokens ++ [.number (stod (c :: cs))])
      else .error .multipleDecimalPoints := by
  simp only [List.all_cons, Bool.and_eq_true] at hall
  obtain ⟨hcdd, hall'⟩ := hall
  have hsp : isspace c = false := isDigitOrDot_not_space hcdd
  have hm : (c == '-') = false := isDigitOrDot_ne_minus hcdd
  have hguard2 : (isdigit c ||
      (c == '.' && (match cs ++ r with | c2 :: _ => isdigit c2 | [] => false))) = true := by
    cases hcase : isdigit c
    · simp only [hcase, Bool.false_or] at hguard ⊢
      cases cs with
      | nil => simp at hguard
      | cons c2 cs'' => simpa using hguard
    · simp
  have hcnt : (c :: cs).countP (fun x => x == '.') =
      cs.countP (fun x => x == '.') + (if (c == '.') = true then 1 else 0) := by
    simp [List.countP_cons]
  rw [List.cons_append, tokenizeAux.eq_def]
  simp only [hsp, Bool.false_eq_true, if_false, hm, Bool.false_and, hguard2, if_true]
  split
  · rename_i e hlex
    rw [lexNumber_run cs (c == '.') r hall' hr] at hlex
    by_cases hcond : cs.countP (fun x => x == '.') + (if (c == '.') = true then 1 else 0) ≤ 1
    · rw [if_pos hcond] at hlex
      exact absurd hlex (by simp)
    · rw [if_neg hcond] at hlex
      rw [if_neg (by rw [hcnt]; exact hcond)]
      simpa using hlex.symm
  · rename_i s r' hlex
    rw [lexNumber_run cs (c == '.') r hall' hr] at hlex
    by_cases hcond : cs.countP (fun x => x == '.') + (if (c == '.') = true then 1 else 0) ≤ 1
    · rw [if_pos hcond] at hlex
      rw [if_pos (by rw [hcnt]; exact hcond)]
      simp only [Except.ok.injEq, Prod.mk.injEq] at hlex
      rw [hlex.1, hlex.2]
    · rw [if_neg hcond] at hlex
      exact absurd hlex (by simp)

/-- A whole valid literal lexes to exactly one Number token. -/
theorem tokenizeAux_lit (l r : List Char) (tokens : List Token)
    (hl : isLit l = true)
    (hr : ∀ ch, r.head? = some ch → isDigitOrDot ch = false) :
    tokenizeAux (l ++ r) tokens = tokenizeAux r (tokens ++ [.number (stod l)]) := by
  cases l with
  | nil => simp [isLit] at hl
  | cons c cs =>
    simp only [isLit, Bool.and_eq_true, decide_eq_true_eq] at hl
    obtain ⟨⟨hguard, hall⟩, hcnt⟩ := hl
    rw [tokenizeAux_literal c cs r tokens hguard hall hr, if_pos hcnt]

/-- A valid literal standing alone at the end of the input. -/
theorem tokenizeAux_lit_nil (l : List Char) (tokens : List Token) (hl : isLit l = true) :
    tokenizeAux l tokens = .ok (tokens ++ [.number (stod l)]) := by
  have h := tokenizeAux_lit l [] tokens hl (by simp)
  rw [List.append_nil] at h
  rw [h]
  rw [tokenizeAux.eq_def]

/-- The traced evaluatePostfix loop computes the same stack-machine
outcome as the clean loop; the trace accumulator never feeds back. -/
theorem evalLoopTraced_snd (l : List Token) : ∀ (st : List ℚ) (tr : List TraceEvent),
    (evalLoopTraced l st tr).2 = evalLoop l st := by
  induction l with
  | nil => intro st tr; simp [evalLoopTraced, evalLoop]
  | cons t rest ih =>
    intro st tr
    cases t with
    | number v => simp [evalLoopTraced, evalLoop, evalStep, ih]
    | operator op =>
      by_cases hu : (op == 'u') = true
      · cases st with
        | nil => simp [evalLoopTraced, evalLoop, evalStep, hu]
        | cons x st' => simp [evalLoopTraced, evalLoop, evalStep, hu, ih]
      · have hu' : (op == 'u') = false := by simpa using hu
        by_cases hp : (op == '%') = true
        · cases st with
          | nil => simp [evalLoopTraced, evalLoop, evalStep, hu', hp]
          | cons x st' => simp [evalLoopTraced, evalLoop, evalStep, hu', hp, ih]
        · have hp' : (op == '%') = false := by simpa using hp
          match st with
          | [] => simp [evalLoopTraced, evalLoop, evalStep, hu', hp']
          | [x] => simp [evalLoopTraced, evalLoop, evalStep, hu', hp']
          | y :: x :: st' =>
            cases happ : applyOperation x y op with
            | error e => simp [evalLoopTraced, evalLoop, evalStep, hu', hp', happ]
            | ok r => simp [evalLoopTraced, evalLoop, evalStep, hu', hp', happ, ih]
    | parenLeft => simp [evalLoopTraced, evalLoop, evalStep, ih]
    | parenRight => simp [evalLoopTraced, evalLoop, evalStep, ih]

/-- The traced evaluatePostfix returns the same result as the clean one. -/
theorem evaluatePostfixTraced_snd (rpn : List Token) :
    (evaluatePostfixTraced rpn).2 = evaluatePostfix rpn := by
  simp only [evaluatePostfixTraced, evaluatePostfix, evalLoopTraced_snd]
  cases hl : evalLoop rpn [] with
  | error e => simp
  | ok st =>
    match st with
    | [] => simp
    | [x] => simp
    | x :: y :: st' => simp

/-
  Claim theorems.
-/

/-- Claim C5: the operator table assigns precedence 1 to plus and minus,
2 to times and divide, 3 to unary minus, 4 to caret, 5 to percent, and
exactly caret, unary minus and percent are right-associative. -/
theorem claim_C5 :
    precedence '+' = 1 ∧ precedence '-' = 1 ∧ precedence '*' = 2 ∧ precedence '/' = 2 ∧
    precedence 'u' = 3 ∧ precedence '^' = 4 ∧ precedence '%' = 5 ∧
    isRightAssociative '^' = true ∧ isRightAssociative 'u' = true ∧
    isRightAssociative '%' = true ∧ isRightAssociative '+' = false ∧
    isRightAssociative '-' = false ∧ isRightAssociative '*' = false ∧
    isRightAssociative '/' = false := by
  decide

/-- Claim C3: a minus character lexes to the unary-minus operator
exactly when no token has been emitted yet (it is the first
non-whitespace content) or the last emitted token is an Operator or a
LeftParen, and to binary subtraction otherwise; consequently
double negation returns 5 on the input with two leading minuses, and
3 - -2 returns 5. -/
theorem claim_C3 :
    (∀ (rest : List Char) (tokens : List Token),
      tokenizeAux ('-' :: rest) tokens =
        tokenizeAux rest (tokens ++
          [.operator (if tokens.isEmpty || lastIsOpOrLParen tokens then 'u' else '-')])) ∧
    evaluate ['-', '-', '5'] = .ok 5 ∧
    evaluate ['3', ' ', '-', ' ', '-', '2'] = .ok 5 := by
  refine ⟨?_, ?_, ?_⟩
  · intro rest tokens
    rw [tokenizeAux.eq_def]
    by_cases hcond : (tokens.isEmpty || lastIsOpOrLParen tokens) = true
    · simp +decide [hcond]
    · have hcond' : (tokens.isEmpty || lastIsOpOrLParen tokens) = false := by simpa using hcond
      simp +decide [hcond', isspace, isdigit]
  · simp [evaluate, tokenize, tokenizeAux, lexNumber, stod, digitsVal, isspace, isdigit,
      lastIsOpOrLParen, toPostfix, toPostfixAux, popOps, shouldPop, drainStack, precedence,
      isRightAssociative, evaluatePostfix, evalLoop, evalStep, applyOperation]
  · simp [evaluate, tokenize, tokenizeAux, lexNumber, stod, digitsVal, isspace, isdigit,
      lastIsOpOrLParen, toPostfix, toPostfixAux, popOps, shouldPop, drainStack, precedence,
      isRightAssociative, evaluatePostfix, evalLoop, evalStep, applyOperation]
    norm_num

/-- Claim C4: the percent operator in postfix evaluation pops exactly
one operand, failing on an empty stack, and pushes that operand divided
by one hundred; fifty percent evaluates to one half, and fifty percent
plus one evaluates to three halves. -/
theorem claim_C4 :
    evalStep [] (.operator '%') = .error .missingOperandPercent ∧
    (∀ (x : ℚ) (st : List ℚ), evalStep (x :: st) (.operator '%') = .ok (x / 100 :: st)) ∧
    evaluate ['5', '0', '%'] = .ok (1 / 2) ∧
    evaluate ['5', '0', '%', '+', '1'] = .ok (3 / 2) := by
  refine ⟨rfl, fun x st => rfl, ?_, ?_⟩
  · simp [evaluate, tokenize, tokenizeAux, lexNumber, stod, digitsVal, isspace, isdigit,
      lastIsOpOrLParen, toPostfix, toPostfixAux, popOps, shouldPop, drainStack, precedence,
      isRightAssociative, evaluatePostfix, evalLoop, evalStep, applyOperation]
    norm_num
  · simp [evaluate, tokenize, tokenizeAux, lexNumber, stod, digitsVal, isspace, isdigit,
      lastIsOpOrLParen, toPostfix, toPostfixAux, popOps, shouldPop, drainStack, precedence,
      isRightAssociative, evaluatePostfix, evalLoop, evalStep, applyOperation]
    norm_num

/-- Claim C7: when the postfix pass completes without failing, the
result is the sole stack value if exactly one value remains and a
malformed-expression error for any other final stack size; the input
1 2 fails with that error. -/
theorem claim_C7 (l : List Token) (st : List ℚ) (h : evalLoop l [] = .ok st) :
    (∀ x, st = [x] → evaluatePostfix l = .ok x) ∧
    (st.length ≠ 1 → evaluatePostfix l = .error .malformedExpression) ∧
    evaluate ['1', ' ', '2'] = .error .malformedExpression := by
  refine ⟨?_, ?_, ?_⟩
  · intro x hx
    subst hx
    simp [evaluatePostfix, h]
  · intro hlen
    unfold evaluatePostfix
    rw [h]
    match st, hlen with
    | [], _ => rfl
    | [x], hlen => exact absurd rfl hlen
    | x :: y :: st', _ => rfl
  · simp [evaluate, tokenize, tokenizeAux, lexNumber, stod, digitsVal, isspace, isdigit,
      lastIsOpOrLParen, toPostfix, toPostfixAux, popOps, shouldPop, drainStack, precedence,
      isRightAssociative, evaluatePostfix, evalLoop, evalStep, applyOperation]

/-- Witness for claim C7 at the postfix sequence of the input 1 2: the
pass leaves two values, so evaluation reports a malformed expression. -/
theorem claim_C7_witness :
    evaluatePostfix [Token.number 1, Token.number 2] = .error .malformedExpression :=
  (claim_C7 [Token.number 1, Token.number 2] [2, 1] rfl).2.1 (by decide)

/-- Claim C9: for every input, the traced pipeline of the debug variant
returns the same result or error as the clean pipeline; the emitted
trace is a pure side channel. -/
theorem claim_C9 (s : List Char) : (evaluateTraced s).2 = evaluate s := by
  cases htok : tokenize s with
  | error e => simp [evaluateTraced, evaluate, htok]
  | ok tokens =>
    cases hpf : toPostfix tokens with
    | error e => simp [evaluateTraced, evaluate, htok, hpf]
    | ok rpn => simp [evaluateTraced, evaluate, htok, hpf, evaluatePostfixTraced_snd]

/-- The shunting-yard pop condition, spelled out: the stack top is
popped iff it has strictly higher precedence than the incoming operator,
or equal precedence and the incoming operator is left-associative. -/
theorem shouldPop_iff (op topOp : Char) :
    shouldPop op topOp = true ↔
      (precedence op < precedence topOp ∨
       (precedence topOp = precedence op ∧ isRightAssociative op = false)) := by
  simp only [shouldPop, Bool.or_eq_true, Bool.and_eq_true, Bool.not_eq_true',
    decide_eq_true_eq]
  cases hra : isRightAssociative op
  · simp
    omega
  · simp

/-- Claim C2: an incoming operator pops stack operators exactly while
the top has strictly higher precedence, or equal precedence when the
incoming operator is left-associative; right-associative operators pop
only on strictly higher precedence, so 2^3^2 evaluates to 512. -/
theorem claim_C2 :
    (∀ (op topOp : Char) (st : List Token),
      (popOps op (.operator topOp :: st)).1 ≠ [] ↔
        (precedence op < precedence topOp ∨
         (precedence topOp = precedence op ∧ isRightAssociative op = false))) ∧
    evaluate ['2', '^', '3', '^', '2'] = .ok 512 := by
  constructor
  · intro op topOp st
    simp only [popOps]
    by_cases hsp : shouldPop op topOp = true
    · rw [if_pos hsp]
      exact iff_of_true (by simp) ((shouldPop_iff op topOp).mp hsp)
    · rw [if_neg hsp]
      exact iff_of_false (by simp) (fun h => hsp ((shouldPop_iff op topOp).mpr h))
  · simp +decide [evaluate, tokenize, tokenizeAux, lexNumber, stod, digitsVal, isspace,
      isdigit, lastIsOpOrLParen, toPostfix, toPostfixAux, popOps, shouldPop, drainStack,
      precedence, isRightAssociative, evaluatePostfix, evalLoop, evalStep, applyOperation,
      powQ]
    norm_num

/-- Claim C8: a number literal begun by a digit, or by a dot followed by
a digit, consumes the maximal digit-and-dot run; a run with at most one
dot becomes one Number token, a second dot fails with the
multiple-decimal-points error, and the input 1..2 fails with it. -/
theorem claim_C8 (c : Char) (cs r : List Char) (tokens : List Token)
    (hguard : (isdigit c ||
      (c == '.' && (match cs with | c2 :: _ => isdigit c2 | [] => false))) = true)
    (hall : (c :: cs).all isDigitOrDot = true)
    (hr : ∀ ch, r.head? = some ch → isDigitOrDot ch = false) :
    tokenizeAux (c :: cs ++ r) tokens =
      (if (c :: cs).countP (fun x => x == '.') ≤ 1
       then tokenizeAux r (tokens ++ [.number (stod (c :: cs))])
       else .error .multipleDecimalPoints) ∧
    evaluate ['1', '.', '.', '2'] = .error .multipleDecimalPoints := by
  refine ⟨tokenizeAux_literal c cs r tokens hguard hall hr, ?_⟩
  simp +decide [evaluate, tokenize, tokenizeAux, lexNumber, isspace, isdigit]

/-- Witness for claim C8: the literal 1..2 holds two decimal points, so
the lexer fails with the multiple-decimal-points error. -/
theorem claim_C8_witness :
    tokenizeAux ['1', '.', '.', '2'] [] = .error CalcError.multipleDecimalPoints := by
  have h := (claim_C8 '1' ['.', '.', '2'] [] []
    (by decide) (by decide) (by simp)).1
  simpa +decide using h

/-- A binary-operator character between a Number token and a literal:
the operator lexes as its own Operator token (the lookbehind sees a
Number, so a minus here is binary subtraction). -/
theorem tokenize_binop_mid (b : List Char) (x : ℚ) (op : Char)
    (hb : isLit b = true)
    (hsp : isspace op = false) (hdig : isdigit op = false) (hdot : (op == '.') = false)
    (hin : (op == '+' || op == '-' || op == '*' || op == '/' ||
            op == '^' || op == '%') = true) :
    tokenizeAux (op :: ' ' :: b) [.number x] =
      .ok [.number x, .operator op, .number (stod b)] := by
  rw [tokenizeAux.eq_def]
  simp only [hsp, Bool.false_eq_true, if_false, lastIsOpOrLParen, List.isEmpty_cons,
    List.getLast?_singleton, Bool.or_self, Bool.and_false, hdig, hdot, Bool.false_and,
    Bool.false_or, hin, if_true, List.singleton_append]
  rw [tokenizeAux_space (by decide) b [Token.number x, Token.operator op]]
  rw [tokenizeAux_lit_nil b [Token.number x, Token.operator op] hb]
  simp

/-- A binary operator between two values in postfix position evaluates
to exactly applyOperation on those values. -/
theorem evaluatePostfix_binop (x y : ℚ) (op : Char)
    (hu : (op == 'u') = false) (hp : (op == '%') = false) :
    evaluatePostfix [.number x, .number y, .operator op] = applyOperation x y op := by
  cases h : applyOperation x y op with
  | error e => simp [evaluatePostfix, evalLoop, evalStep, hu, hp, h]
  | ok r => simp [evaluatePostfix, evalLoop, evalStep, hu, hp, h]

/-- applyOperation agrees with the direct arithmetic application of the
operator whenever the operator is one of the five binary ones and the
division-by-zero case is excluded. -/
theorem applyOperation_ok (x y : ℚ) (op : Char)
    (hop : op = '+' ∨ op = '-' ∨ op = '*' ∨ op = '/' ∨ op = '^')
    (h : ¬(op = '/' ∧ y = 0)) :
    applyOperation x y op = .ok (directApply x y op) := by
  rcases hop with rfl | rfl | rfl | rfl | rfl
  · simp +decide [applyOperation, directApply]
  · simp +decide [applyOperation, directApply]
  · simp +decide [applyOperation, directApply]
  · have hy : ¬(y = 0) := fun h0 => h ⟨rfl, h0⟩
    simp +decide [applyOperation, directApply, hy]
  · simp +decide [applyOperation, directApply]

/-- Claim C1: for non-negative literals a and b and each binary operator,
the full pipeline on the input a op b returns the direct arithmetic
application of the operator to the two literal values, except division
by a zero literal, which fails with the division-by-zero error. -/
theorem claim_C1 (a b : List Char) (op : Char)
    (ha : isLit a = true) (hb : isLit b = true)
    (hop : op = '+' ∨ op = '-' ∨ op = '*' ∨ op = '/' ∨ op = '^') :
    (¬(op = '/' ∧ stod b = 0) →
      evaluate (a ++ ' ' :: op :: ' ' :: b) = .ok (directApply (stod a) (stod b) op)) ∧
    (op = '/' → stod b = 0 →
      evaluate (a ++ ' ' :: op :: ' ' :: b) = .error .divisionByZero) := by
  have hbnd : ∀ ch, (' ' :: op :: ' ' :: b).head? = some ch → isDigitOrDot ch = false := by
    intro ch hch
    simp only [List.head?_cons, Option.some.injEq] at hch
    subst hch
    decide
  have hsp : isspace op = false := by
    rcases hop with rfl | rfl | rfl | rfl | rfl <;> decide
  have hdig : isdigit op = false := by
    rcases hop with rfl | rfl | rfl | rfl | rfl <;> decide
  have hdot : (op == '.') = false := by
    rcases hop with rfl | rfl | rfl | rfl | rfl <;> decide
  have hin : (op == '+' || op == '-' || op == '*' || op == '/' ||
      op == '^' || op == '%') = true := by
    rcases hop with rfl | rfl | rfl | rfl | rfl <;> decide
  have hu : (op == 'u') = false := by
    rcases hop with rfl | rfl | rfl | rfl | rfl <;> decide
  have hpct : (op == '%') = false := by
    rcases hop with rfl | rfl | rfl | rfl | rfl <;> decide
  have ht : tokenize (a ++ ' ' :: op :: ' ' :: b) =
      .ok [.number (stod a), .operator op, .number (stod b)] := by
    unfold tokenize
    rw [tokenizeAux_lit a (' ' :: op :: ' ' :: b) [] ha hbnd]
    rw [tokenizeAux_space (by decide) (op :: ' ' :: b) ([] ++ [Token.number (stod a)])]
    simp only [List.nil_append]
    exact tokenize_binop_mid b (stod a) op hb hsp hdig hdot hin
  have hpf : toPostfix [Token.number (stod a), Token.operator op, Token.number (stod b)] =
      .ok [Token.number (stod a), Token.number (stod b), Token.operator op] := rfl
  have hev : evaluate (a ++ ' ' :: op :: ' ' :: b) =
      applyOperation (stod a) (stod b) op := by
    simp only [evaluate, ht, hpf, evaluatePostfix_binop (stod a) (stod b) op hu hpct]
  constructor
  · intro hnot
    rw [hev, applyOperation_ok (stod a) (stod b) op hop hnot]
  · rintro rfl h0
    rw [hev, h0]
    simp +decide [applyOperation]

/-- Witness for claim C1: the input 7 + 2 evaluates to 9. -/
theorem claim_C1_witness : evaluate ['7', ' ', '+', ' ', '2'] = .ok 9 := by
  have h := (claim_C1 ['7'] ['2'] '+' (by decide) (by decide) (Or.inl rfl)).1
    (by simp)
  rw [List.singleton_append] at h
  rw [h]
  simp +decide [stod, digitsVal, directApply]
  norm_num

/-
  Structural lemmas about the shunting-yard operator stack.
-/

theorem lpCount_nil : lpCount [] = 0 := rfl

theorem lpCount_cons_op (o : Char) (l : List Token) :
    lpCount (Token.operator o :: l) = lpCount l := by
  simp [lpCount, List.countP_cons, isLParenTok]

theorem lpCount_cons_num (v : ℚ) (l : List Token) :
    lpCount (Token.number v :: l) = lpCount l := by
  simp [lpCount, List.countP_cons, isLParenTok]

theorem lpCount_cons_rp (l : List Token) :
    lpCount (Token.parenRight :: l) = lpCount l := by
  simp [lpCount, List.countP_cons, isLParenTok]

theorem lpCount_cons_lp (l : List Token) :
    lpCount (Token.parenLeft :: l) = lpCount l + 1 := by
  simp [lpCount, List.countP_cons, isLParenTok]

theorem rpCount_cons_op (o : Char) (l : List Token) :
    rpCount (Token.operator o :: l) = rpCount l := by
  simp [rpCount, List.countP_cons, isRParenTok]

theorem rpCount_cons_num (v : ℚ) (l : List Token) :
    rpCount (Token.number v :: l) = rpCount l := by
  simp [rpCount, List.countP_cons, isRParenTok]

theorem rpCount_cons_lp (l : List Token) :
    rpCount (Token.parenLeft :: l) = rpCount l := by
  simp [rpCount, List.countP_cons, isRParenTok]

theorem rpCount_cons_rp (l : List Token) :
    rpCount (Token.parenRight :: l) = rpCount l + 1 := by
  simp [rpCount, List.countP_cons, isRParenTok]

/-- The operator pop loop splits the stack: the popped part followed by
the remaining part is the original stack, and every popped token is an
Operator. -/
theorem popOps_split (op : Char) (st : List Token) :
    (popOps op st).1 ++ (popOps op st).2 = st ∧
    ∀ t ∈ (popOps op st).1, ∃ o, t = Token.operator o := by
  induction st with
  | nil => simp [popOps]
  | cons t st' ih =>
    cases t with
    | operator topOp =>
      simp only [popOps]
      by_cases hsp : shouldPop op topOp = true
      · rw [if_pos hsp]
        simp only [List.cons_append, List.mem_cons]
        refine ⟨by rw [ih.1], ?_⟩
        rintro t (rfl | ht)
        · exact ⟨topOp, rfl⟩
        · exact ih.2 t ht
      · rw [if_neg hsp]
        simp
    | number v => simp [popOps]
    | parenLeft => simp [popOps]
    | parenRight => simp [popOps]

/-- Popping operators never changes how many LeftParens are buried in
the stack. -/
theorem popOps_lpCount (op : Char) (st : List Token) :
    lpCount (popOps op st).2 = lpCount st := by
  obtain ⟨hsplit, hops⟩ := popOps_split op st
  have h0 : List.countP isLParenTok (popOps op st).1 = 0 := by
    rw [List.countP_eq_zero]
    intro t ht
    obtain ⟨o, rfl⟩ := hops t ht
    simp [isLParenTok]
  have happ := List.countP_append isLParenTok (popOps op st).1 (popOps op st).2
  rw [hsplit] at happ
  simp only [lpCount]
  omega

/-- Successful pop-until-LeftParen splits the stack at its first
LeftParen; the popped part holds none. -/
theorem popUntilLParen_ok (st : List Token) : ∀ (p st' : List Token),
    popUntilLParen st = .ok (p, st') →
    st = p ++ Token.parenLeft :: st' ∧ ∀ t ∈ p, isLParenTok t = false := by
  induction st with
  | nil =>
    intro p st' h
    simp [popUntilLParen] at h
  | cons t st0 ih =>
    intro p st' h
    cases t with
    | parenLeft =>
      simp only [popUntilLParen, Except.ok.injEq, Prod.mk.injEq] at h
      obtain ⟨rfl, rfl⟩ := h
      simp
    | operator o =>
      simp only [popUntilLParen] at h
      cases hrec : popUntilLParen st0 with
      | error e => rw [hrec] at h; simp at h
      | ok q =>
        obtain ⟨p0, st0'⟩ := q
        rw [hrec] at h
        simp only [Except.ok.injEq, Prod.mk.injEq] at h
        obtain ⟨hp, hst⟩ := h
        subst hp
        subst hst
        obtain ⟨hsp, hnolp⟩ := ih p0 st0' hrec
        refine ⟨by rw [hsp]; rfl, ?_⟩
        intro t ht
        rcases List.mem_cons.mp ht with rfl | ht'
        · rfl
        · exact hnolp t ht'
    | number v =>
      simp only [popUntilLParen] at h
      cases hrec : popUntilLParen st0 with
      | error e => rw [hrec] at h; simp at h
      | ok q =>
        obtain ⟨p0, st0'⟩ := q
        rw [hrec] at h
        simp only [Except.ok.injEq, Prod.mk.injEq] at h
        obtain ⟨hp, hst⟩ := h
        subst hp
        subst hst
        obtain ⟨hsp, hnolp⟩ := ih p0 st0' hrec
        refine ⟨by rw [hsp]; rfl, ?_⟩
        intro t ht
        rcases List.mem_cons.mp ht with rfl | ht'
        · rfl
        · exact hnolp t ht'
    | parenRight =>
      simp only [popUntilLParen] at h
      cases hrec : popUntilLParen st0 with
      | error e => rw [hrec] at h; simp at h
      | ok q =>
        obtain ⟨p0, st0'⟩ := q
        rw [hrec] at h
        simp only [Except.ok.injEq, Prod.mk.injEq] at h
        obtain ⟨hp, hst⟩ := h
        subst hp
        subst hst
        obtain ⟨hsp, hnolp⟩ := ih p0 st0' hrec
        refine ⟨by rw [hsp]; rfl, ?_⟩
        intro t ht
        rcases List.mem_cons.mp ht with rfl | ht'
        · rfl
        · exact hnolp t ht'

/-- Pop-until-LeftParen fails with the unexpected-close error exactly
when the stack holds no LeftParen; otherwise it succeeds, consuming one. -/
theorem popUntilLParen_classify (st : List Token) :
    (lpCount st = 0 ∧ popUntilLParen st = .error .unexpectedRParen) ∨
    (∃ p st', popUntilLParen st = .ok (p, st') ∧ lpCount st = lpCount st' + 1) := by
  induction st with
  | nil => left; exact ⟨rfl, rfl⟩
  | cons t st0 ih =>
    cases t with
    | parenLeft =>
      right
      exact ⟨[], st0, rfl, lpCount_cons_lp st0⟩
    | operator o =>
      rcases ih with ⟨h0, he⟩ | ⟨p, st', hok, hc⟩
      · left
        refine ⟨by rw [lpCount_cons_op, h0], ?_⟩
        simp only [popUntilLParen, he]
      · right
        refine ⟨.operator o :: p, st', ?_, ?_⟩
        · simp only [popUntilLParen, hok]
        · rw [lpCount_cons_op, hc]
    | number v =>
      rcases ih with ⟨h0, he⟩ | ⟨p, st', hok, hc⟩
      · left
        refine ⟨by rw [lpCount_cons_num, h0], ?_⟩
        simp only [popUntilLParen, he]
      · right
        refine ⟨.number v :: p, st', ?_, ?_⟩
        · simp only [popUntilLParen, hok]
        · rw [lpCount_cons_num, hc]
    | parenRight =>
      rcases ih with ⟨h0, he⟩ | ⟨p, st', hok, hc⟩
      · left
        refine ⟨by rw [lpCount_cons_rp, h0], ?_⟩
        simp only [popUntilLParen, he]
      · right
        refine ⟨.parenRight :: p, st', ?_, ?_⟩
        · simp only [popUntilLParen, hok]
        · rw [lpCount_cons_rp, hc]

/-- The final drain fails with the unclosed-open error exactly when a
LeftParen remains on the stack; otherwise it returns the whole stack. -/
theorem drainStack_classify (st : List Token) :
    (lpCount st = 0 ∧ drainStack st = .ok st) ∨
    (0 < lpCount st ∧ drainStack st = .error .unclosedLParen) := by
  induction st with
  | nil => left; exact ⟨rfl, rfl⟩
  | cons t st0 ih =>
    cases t with
    | parenLeft =>
      right
      exact ⟨by rw [lpCount_cons_lp]; omega, rfl⟩
    | operator o =>
      rcases ih with ⟨h0, hd⟩ | ⟨h0, hd⟩
      · left
        refine ⟨by rw [lpCount_cons_op, h0], ?_⟩
        simp only [drainStack, hd]
      · right
        refine ⟨by rw [lpCount_cons_op]; omega, ?_⟩
        simp only [drainStack, hd]
    | number v =>
      rcases ih with ⟨h0, hd⟩ | ⟨h0, hd⟩
      · left
        refine ⟨by rw [lpCount_cons_num, h0], ?_⟩
        simp only [drainStack, hd]
      · right
        refine ⟨by rw [lpCount_cons_num]; omega, ?_⟩
        simp only [drainStack, hd]
    | parenRight =>
      rcases ih with ⟨h0, hd⟩ | ⟨h0, hd⟩
      · left
        refine ⟨by rw [lpCount_cons_rp, h0], ?_⟩
        simp only [drainStack, hd]
      · right
        refine ⟨by rw [lpCount_cons_rp]; omega, ?_⟩
        simp only [drainStack, hd]


/-- Invariant of the shunting-yard loop: with only Number/Operator
tokens in the output and only Operator/LeftParen tokens on the stack, a
successful conversion yields only Number/Operator tokens. -/
theorem toPostfixAux_all (rest : List Token) : ∀ (output opStack out : List Token),
    output.all isNumOrOp = true → opStack.all isOpOrLParenTok = true →
    toPostfixAux rest output opStack = .ok out → out.all isNumOrOp = true := by
  induction rest with
  | nil =>
    intro output opStack out hout hstack h
    simp only [toPostfixAux] at h
    rcases drainStack_classify opStack with ⟨h0, hd⟩ | ⟨h0, hd⟩
    · rw [hd] at h
      simp only [Except.ok.injEq] at h
      subst h
      rw [List.all_append, hout, Bool.true_and, List.all_eq_true]
      intro t ht
      have h1 := List.all_eq_true.mp hstack t ht
      have h2 : isLParenTok t = false := by
        have := List.countP_eq_zero.mp h0 t ht
        simpa using this
      cases t with
      | number v => rfl
      | operator o => rfl
      | parenLeft => simp [isLParenTok] at h2
      | parenRight => simp [isOpOrLParenTok] at h1
    · rw [hd] at h
      simp at h
  | cons t rest' ih =>
    intro output opStack out hout hstack h
    cases t with
    | number v =>
      simp only [toPostfixAux] at h
      refine ih _ _ _ ?_ hstack h
      rw [List.all_append, hout, Bool.true_and]
      simp [isNumOrOp]
    | operator op =>
      simp only [toPostfixAux] at h
      obtain ⟨hsplit, hops⟩ := popOps_split op opStack
      refine ih _ _ _ ?_ ?_ h
      · rw [List.all_append, hout, Bool.true_and, List.all_eq_true]
        intro t ht
        obtain ⟨o, rfl⟩ := hops t ht
        rfl
      · rw [List.all_cons, show isOpOrLParenTok (Token.operator op) = true from rfl,
          Bool.true_and, List.all_eq_true]
        intro t ht
        have htm : t ∈ opStack := by
          rw [← hsplit]
          exact List.mem_append_right _ ht
        exact List.all_eq_true.mp hstack t htm
    | parenLeft =>
      simp only [toPostfixAux] at h
      refine ih _ _ _ hout ?_ h
      rw [List.all_cons, show isOpOrLParenTok Token.parenLeft = true from rfl, Bool.true_and]
      exact hstack
    | parenRight =>
      simp only [toPostfixAux] at h
      cases hp : popUntilLParen opStack with
      | error e =>
        rw [hp] at h
        simp at h
      | ok q =>
        obtain ⟨p, st'⟩ := q
        rw [hp] at h
        obtain ⟨hsplit, hnolp⟩ := popUntilLParen_ok opStack p st' hp
        refine ih _ _ _ ?_ ?_ h
        · rw [List.all_append, hout, Bool.true_and, List.all_eq_true]
          intro t ht
          have htm : t ∈ opStack := by
            rw [hsplit]
            exact List.mem_append_left _ ht
          have h1 := List.all_eq_true.mp hstack t htm
          have h2 := hnolp t ht
          cases t with
          | number v => rfl
          | operator o => rfl
          | parenLeft => simp [isLParenTok] at h2
          | parenRight => simp [isOpOrLParenTok] at h1
        · rw [List.all_eq_true]
          intro t ht
          have htm : t ∈ opStack := by
            rw [hsplit]
            exact List.mem_append_right _ (List.mem_cons_of_mem _ ht)
          exact List.all_eq_true.mp hstack t htm

/-- Claim C10: a successful toPostfix returns only Number and Operator
tokens, never parentheses; and the evaluator loop indeed has no paren
branch, silently skipping any paren token it would be handed. -/
theorem claim_C10 (tokens out : List Token) (h : toPostfix tokens = .ok out) :
    out.all isNumOrOp = true ∧
    (∀ (st : List ℚ), evalStep st .parenLeft = .ok st ∧ evalStep st .parenRight = .ok st) :=
  ⟨toPostfixAux_all tokens [] [] out rfl rfl h, fun _ => ⟨rfl, rfl⟩⟩

/-- Witness for claim C10 on the token sequence of (1): the produced
postfix sequence holds only Number and Operator tokens. -/
theorem claim_C10_witness : [Token.number (1 : ℚ)].all isNumOrOp = true :=
  (claim_C10 [Token.parenLeft, Token.number 1, Token.parenRight] [Token.number 1] rfl).1

theorem rpCount_nil : rpCount [] = 0 := rfl

/-- Full classification of the shunting-yard loop by parenthesis
structure: starting with k open parens on the stack, the loop fails with
the unexpected-close error iff some prefix of the remaining input closes
more parens than are open, fails with the unclosed-open error iff no
prefix does but opens outnumber closes overall, and succeeds iff no
prefix does and opens balance closes exactly. -/
theorem toPostfixAux_paren (rest : List Token) : ∀ (output opStack : List Token),
    (toPostfixAux rest output opStack = .error .unexpectedRParen ↔
      hasPrefixExcess rest (lpCount opStack) = true) ∧
    (toPostfixAux rest output opStack = .error .unclosedLParen ↔
      (hasPrefixExcess rest (lpCount opStack) = false ∧
        rpCount rest < lpCount opStack + lpCount rest)) ∧
    ((∃ out, toPostfixAux rest output opStack = .ok out) ↔
      (hasPrefixExcess rest (lpCount opStack) = false ∧
        lpCount opStack + lpCount rest = rpCount rest)) := by
  induction rest with
  | nil =>
    intro output opStack
    simp only [toPostfixAux]
    rcases drainStack_classify opStack with ⟨h0, hd⟩ | ⟨h0, hd⟩
    · rw [hd]
      refine ⟨by simp [hasPrefixExcess], ?_, ?_⟩
      · refine iff_of_false (by simp) ?_
        rintro ⟨_, hlt⟩
        rw [lpCount_nil, rpCount_nil] at hlt
        omega
      · refine iff_of_true ⟨output ++ opStack, rfl⟩ ⟨rfl, ?_⟩
        rw [lpCount_nil, rpCount_nil]
        omega
    · rw [hd]
      refine ⟨by simp [hasPrefixExcess], ?_, ?_⟩
      · refine iff_of_true rfl ⟨rfl, ?_⟩
        rw [lpCount_nil, rpCount_nil]
        omega
      · refine iff_of_false (by simp) ?_
        rintro ⟨_, hc⟩
        rw [lpCount_nil, rpCount_nil] at hc
        omega
  | cons t rest' ih =>
    intro output opStack
    cases t with
    | number v =>
      have H := ih (output ++ [Token.number v]) opStack
      have e1 : toPostfixAux (Token.number v :: rest') output opStack =
          toPostfixAux rest' (output ++ [Token.number v]) opStack := by
        simp only [toPostfixAux]
      have e2 : hasPrefixExcess (Token.number v :: rest') (lpCount opStack) =
          hasPrefixExcess rest' (lpCount opStack) := by
        simp only [hasPrefixExcess]
      rw [e1, e2, lpCount_cons_num, rpCount_cons_num]
      exact H
    | operator op =>
      have H := ih (output ++ (popOps op opStack).1)
        (Token.operator op :: (popOps op opStack).2)
      have hk : lpCount (Token.operator op :: (popOps op opStack).2) = lpCount opStack := by
        rw [lpCount_cons_op, popOps_lpCount]
      rw [hk] at H
      have e1 : toPostfixAux (Token.operator op :: rest') output opStack =
          toPostfixAux rest' (output ++ (popOps op opStack).1)
            (Token.operator op :: (popOps op opStack).2) := by
        simp only [toPostfixAux]
      have e2 : hasPrefixExcess (Token.operator op :: rest') (lpCount opStack) =
          hasPrefixExcess rest' (lpCount opStack) := by
        simp only [hasPrefixExcess]
      rw [e1, e2, lpCount_cons_op, rpCount_cons_op]
      exact H
    | parenLeft =>
      have H := ih output (Token.parenLeft :: opStack)
      rw [lpCount_cons_lp] at H
      have e1 : toPostfixAux (Token.parenLeft :: rest') output opStack =
          toPostfixAux rest' output (Token.parenLeft :: opStack) := by
        simp only [toPostfixAux]
      have e2 : hasPrefixExcess (Token.parenLeft :: rest') (lpCount opStack) =
          hasPrefixExcess rest' (lpCount opStack + 1) := by
        simp only [hasPrefixExcess]
      rw [e1, e2, lpCount_cons_lp, rpCount_cons_lp]
      obtain ⟨H1, H2, H3⟩ := H
      exact ⟨H1, H2.trans (and_congr_right fun _ => by omega),
        H3.trans (and_congr_right fun _ => by omega)⟩
    | parenRight =>
      have e1 : hasPrefixExcess (Token.parenRight :: rest') (lpCount opStack) =
          if lpCount opStack = 0 then true
          else hasPrefixExcess rest' (lpCount opStack - 1) := by
        simp only [hasPrefixExcess]
      rcases popUntilLParen_classify opStack with ⟨h0, he⟩ | ⟨p, st', hok, hc⟩
      · have e2 : toPostfixAux (Token.parenRight :: rest') output opStack =
            .error .unexpectedRParen := by
          simp only [toPostfixAux, he]
        rw [e1, e2, if_pos h0]
        refine ⟨iff_of_true rfl rfl, ?_, ?_⟩
        · refine iff_of_false (by simp) ?_
          rintro ⟨hf, _⟩
          simp at hf
        · refine iff_of_false (by simp) ?_
          rintro ⟨hf, _⟩
          simp at hf
      · have e2 : toPostfixAux (Token.parenRight :: rest') output opStack =
            toPostfixAux rest' (output ++ p) st' := by
          simp only [toPostfixAux, hok]
        have H := ih (output ++ p) st'
        rw [e1, e2, if_neg (by omega),
          show lpCount opStack - 1 = lpCount st' from by omega,
          lpCount_cons_rp, rpCount_cons_rp]
        obtain ⟨H1, H2, H3⟩ := H
        exact ⟨H1, H2.trans (and_congr_right fun _ => by omega),
          H3.trans (and_congr_right fun _ => by omega)⟩

/-- Claim C6: toPostfix fails exactly on parenthesis mismatch: the
unexpected-close error iff some prefix of the input closes an unopened
paren, the unclosed-open error iff parens never over-close but some
open paren is never closed, and on every other token sequence it
succeeds without failing. -/
theorem claim_C6 (tokens : List Token) :
    (toPostfix tokens = .error .unexpectedRParen ↔
      hasPrefixExcess tokens 0 = true) ∧
    (toPostfix tokens = .error .unclosedLParen ↔
      (hasPrefixExcess tokens 0 = false ∧ rpCount tokens < lpCount tokens)) ∧
    ((∃ out, toPostfix tokens = .ok out) ↔
      (hasPrefixExcess tokens 0 = false ∧ lpCount tokens = rpCount tokens)) := by
  have H := toPostfixAux_paren tokens [] []
  rw [lpCount_nil] at H
  simp only [Nat.zero_add] at H
  simp only [toPostfix]
  exact H

/-- Witness for claim C6: a lone RightParen token makes the operator
stack empty without a LeftParen, so conversion fails with the
unexpected-close error. -/
theorem claim_C6_witness :
    toPostfix [Token.parenRight] = .error CalcError.unexpectedRParen :=
  (claim_C6 [Token.parenRight]).1.mpr rfl

/-- Witness for claim C9 on the input 1: traced and clean pipelines
agree. -/
theorem claim_C9_witness : (evaluateTraced ['1']).2 = evaluate ['1'] :=
  claim_C9 ['1']

end SimpleCalc
